import Mathlib

/-!
Verification of the differentiable stack of `structs/legacy/stack.py`
(StackNN), together with the task-level helpers of `tasks/cfg.py` and
`tasks/reverse.py` that the specification talks about.

Modelling conventions.
The PyTorch code computes with float32 tensors; we embed the arithmetic
over `ℚ` (exact arithmetic, as the self-test trace of the spec demands).
Every per-batch-element computation of the stack is independent of the
other batch elements (the code only ever applies pointwise tensor
operations and per-column slices along the batch axis), so the stack is
modelled for one batch element: a pushed vector `v` is a `List ℚ` of
length `embedding_size`, a pop signal `u` and a push signal `d` are
single rationals.  Logs are kept oldest-first, exactly like the time
axis of the tensors `self.V` and `self.s` in the source: index `0` is
the oldest entry and index `t - 1` the most recently pushed one.
-/

/-- Scalar `F.relu`: the positive part. -/
def relu (x : ℚ) : ℚ := max x 0

/-- Pointwise addition of two embedding vectors (`+` on tensors). -/
def vadd (x y : List ℚ) : List ℚ := List.zipWith (· + ·) x y

/-- Pointwise subtraction of two embedding vectors (`-` on tensors). -/
def vsub (x y : List ℚ) : List ℚ := List.zipWith (· - ·) x y

/-- Scalar multiplication of an embedding vector (`coeffs * V[i]`). -/
def smul (c : ℚ) (v : List ℚ) : List ℚ := v.map (fun x => c * x)

/-- The zero vector `torch.zeros(emb)`. -/
def zeroVec (emb : ℕ) : List ℚ := List.replicate emb 0

/-- The state of `Stack`: the vector log `self.V` (one entry per time
step, oldest first) and the strength log `self.s` (same indexing). -/
structure Stack where
  V : List (List ℚ)
  s : List ℚ

/-- A freshly constructed `Stack`: both logs are empty tensors. -/
def stackEmpty : Stack := ⟨[], []⟩

/-- The strength-update loop of `Stack.forward`:

    w = u
    for i in reversed(range(old_t)):
        s_[i] = relu(self.s[i] - w)
        w = relu(w - self.s[i])

The loop walks the log from the most recent entry (`old_t - 1`) toward
the oldest (`0`).  On the oldest-first list this is structural
recursion that first processes the tail (the more recent entries) and
then the head: `popStep u s` returns the updated strengths (same
order) together with the residual pop mass `w` left after the walk. -/
def popStep (u : ℚ) : List ℚ → List ℚ × ℚ
  | [] => ([], u)
  | a :: rest =>
    let p := popStep u rest
    (relu (a - p.2) :: p.1, relu (p.2 - a))

/-- The read loop of `Stack.forward` with threshold `thr` (the single
read uses `thr = 1`, the `k`-read branch uses `thr = 1 + k`):

    for i in reversed(range(old_t + 1)):
        used = sum(self.s[i+1 : old_t+1])
        coeffs = min(self.s[i], relu(thr - used))
        r += coeffs * self.V[i]

Entry `i` contributes `min(s[i], relu(thr - used_i)) * V[i]`, where
`used_i` is the sum of the strengths of the entries pushed after it;
on the oldest-first lists this sum of terms is again structural
recursion (the head's `used` is the sum of the whole tail). -/
def readLoop (emb : ℕ) (thr : ℚ) : List (List ℚ) → List ℚ → List ℚ
  | v :: Vr, a :: sr =>
    vadd (smul (min a (relu (thr - sr.sum))) v) (readLoop emb thr Vr sr)
  | _, _ => zeroVec emb

/-- The state mutation of one `forward` call: `self.V` gets the pushed
vector appended (`torch.cat([self.V, v], 0)`), and `self.s` becomes the
pop-updated old strengths with `d` appended (`s[old_t, :] = d`). -/
def stepState (st : Stack) (v : List ℚ) (u d : ℚ) : Stack :=
  ⟨st.V ++ [v], (popStep u st.s).1 ++ [d]⟩

/-- Method `Stack.forward` in the single-read configuration (`self.k is None`):
returns the read vector and the updated stack state. -/
def forward (emb : ℕ) (st : Stack) (v : List ℚ) (u d : ℚ) :
    List ℚ × Stack :=
  (readLoop emb 1 (stepState st v u d).V (stepState st v u d).s,
   stepState st v u d)

/-- Method `Stack.forward` in the multi-read configuration (`self.k = K`):
first loop fills `r[:, k, :]` with the cumulative read at threshold
`1 + k`, the second loop replaces `r[:, k, :]` by
`r[:, k, :] - r[:, k-1, :]` for `k = K-1, ..., 1` (descending, so each
subtraction still sees the original cumulative read at level `k-1`). -/
def multiRead (emb K : ℕ) (V : List (List ℚ)) (s : List ℚ) :
    List (List ℚ) :=
  let cum := (List.range K).map
    (fun k : ℕ => readLoop emb (1 + (k : ℚ)) V s)
  (List.range K).map (fun k =>
    if k = 0 then cum.getD 0 (zeroVec emb)
    else vsub (cum.getD k (zeroVec emb)) (cum.getD (k - 1) (zeroVec emb)))

/-- Method `Stack.forward` when `self.k` is set: the list of `K` read vectors
together with the updated state. -/
def forwardK (emb K : ℕ) (st : Stack) (v : List ℚ) (u d : ℚ) :
    List (List ℚ) × Stack :=
  (multiRead emb K (stepState st v u d).V (stepState st v u d).s,
   stepState st v u d)

/-- The spec's description of the residual pop mass: starting from `u`,
walking from the most recent entry toward the oldest, the mass left
after visiting an entry of strength `a` is `relu(w - a)`.  On an
oldest-first list the walk visits the tail (more recent entries) first,
which is exactly a right fold. -/
def popResidual (u : ℚ) (l : List ℚ) : ℚ :=
  l.foldr (fun a w => relu (w - a)) u

/-- The spec's readable coefficient of log entry `i` at threshold
`thr`: `min(own strength, relu(thr - used))` where `used` is the summed
strength of all entries pushed more recently than `i`. -/
def specCoeff (thr : ℚ) (s : List ℚ) (i : ℕ) : ℚ :=
  min (s.getD i 0) (relu (thr - ((s.drop (i + 1)).sum)))

/-- The spec's description of a read: the weighted sum, over all log
positions `i`, of `V[i]` scaled by the readable coefficient of `i`. -/
def readSpec (emb : ℕ) (thr : ℚ) (V : List (List ℚ)) (s : List ℚ) :
    List ℚ :=
  ((List.range s.length).map
    (fun i => smul (specCoeff thr s i) (V.getD i (zeroVec emb)))).foldr
    vadd (zeroVec emb)

/-- The stack states reachable from a fresh `Stack` by `forward` calls
whose pop and push signals lie in `[0, 1]` (the caller contract of the
spec). -/
inductive Reaches : Stack → Prop
  | init : Reaches stackEmpty
  | step (st : Stack) (v : List ℚ) (u d : ℚ) :
      Reaches st → 0 ≤ u → u ≤ 1 → 0 ≤ d → d ≤ 1 →
      Reaches (stepState st v u d)

/-- Modelled from the spec: one step of the classical discrete stack
that the soft stack refines at the `{0, 1}` boundary.  The stack is an
oldest-first list of vectors (its top is the last element); a `forward`
call first pops (when `u = 1`) and then pushes `v` (when `d = 1`),
matching the order in which `Stack.forward` applies the pop signal to
the existing log before appending the new entry. -/
def hardStep (hs : List (List ℚ)) (v : List ℚ) (u d : ℚ) :
    List (List ℚ) :=
  (if u = 1 then hs.dropLast else hs) ++ (if d = 1 then [v] else [])

/-- Modelled from the spec: the top-of-stack value of the classical
discrete stack; on an empty stack the read is the well-defined zero
vector that the spec's error-handling section prescribes. -/
def hardRead (emb : ℕ) (hs : List (List ℚ)) : List ℚ :=
  hs.getLastD (zeroVec emb)

/-- The sequence of single-read outputs produced by running a list of
`forward` calls (one triple `(v, u, d)` per call) from state `st`. -/
def softReads (emb : ℕ) (st : Stack) :
    List (List ℚ × ℚ × ℚ) → List (List ℚ)
  | [] => []
  | (v, u, d) :: rest =>
    (forward emb st v u d).1 :: softReads emb (forward emb st v u d).2 rest

/-- The sequence of top-of-stack values produced by running the same
calls on the classical discrete stack. -/
def hardTops (emb : ℕ) (hs : List (List ℚ)) :
    List (List ℚ × ℚ × ℚ) → List (List ℚ)
  | [] => []
  | (v, u, d) :: rest =>
    hardRead emb (hardStep hs v u d) :: hardTops emb (hardStep hs v u d) rest

/-- The entries of the soft log that a classical stack would still
hold: the vectors whose strength is (exactly) `1`, oldest first. -/
def hardOf (V : List (List ℚ)) (s : List ℚ) : List (List ℚ) :=
  ((V.zip s).filter (fun p => p.2 = 1)).map Prod.fst

/-- Fuel-driven row grouping used to model `torch.view`: cut a flat
buffer into `B` consecutive rows of `E` elements each. -/
def chunkRows (E : ℕ) : ℕ → List ℚ → List (List ℚ)
  | 0, _ => []
  | b + 1, l => l.take E :: chunkRows E b (l.drop E)

/-- Operation `v.view(1, batch_size, embedding_size)` from `Stack.forward`
(line 41), on a 2-D input tensor modelled as its list of rows:
`view` raises a shape error exactly when the total element count of
`v` differs from `batch_size * embedding_size`; otherwise it reindexes
the same elements, row-major, into `batch_size` rows of
`embedding_size` (the leading dimension of extent 1 is dropped here). -/
def tensorView (B E : ℕ) (v : List (List ℚ)) : Option (List (List ℚ)) :=
  if v.flatten.length = B * E then some (chunkRows E B v.flatten) else none

/-- Function `random.choice` from `CFGTask.get_random_sample_string`: on an
empty sequence it raises `IndexError` (modelled as `none`); on a
non-empty sequence it returns one of its elements (which one is random;
the model deterministically returns the head, which is all the
error-handling claim depends on). -/
def randomChoice {α : Type} (l : List α) : Option α :=
  match l with
  | [] => none
  | a :: _ => some a

/-- Method `CFGTask.get_random_sample_string`: draw one sentence from
`self.sample_strings`. -/
def getRandomSampleString {α : Type} (sampleStrings : List (List α)) :
    Option (List α) :=
  randomChoice sampleStrings

/-- The `x_raw` list comprehension of `CFGTask.get_tensors`: `n` draws
from the sample strings; the whole generation fails (the exception
propagates) as soon as one draw fails. -/
def drawSamples {α : Type} (sampleStrings : List (List α)) :
    ℕ → Option (List (List α))
  | 0 => some []
  | n + 1 =>
    match getRandomSampleString sampleStrings with
    | none => none
    | some s => (drawSamples sampleStrings n).map (fun xs => s :: xs)

/-- Method `CFGTask.get_tensors`: draw `n` sample sentences `x_raw` and pair
them with the next-symbol targets `y_raw = [s[1:] for s in x_raw]`. -/
def getTensorsCFG {α : Type} (sampleStrings : List (List α)) (n : ℕ) :
    Option (List (List α) × List (List α)) :=
  (drawSamples sampleStrings n).map (fun xs => (xs, xs.map (fun s => s.drop 1)))

/-- Method `ReverseDeletionTask.reverse_with_delete`: keep the symbols whose
integer value is below `num_symbols // 2` (appending each kept symbol
to `t` in input order) and return `t[::-1]`.  Symbols are modelled by
their integer values. -/
def reverse_with_delete (numSymbols : ℕ) (s : List ℕ) : List ℕ :=
  (s.foldl (fun t symbol => if symbol < numSymbols / 2 then t ++ [symbol]
    else t) []).reverse

/-- The raw target sequence built by `ReverseDeletionTask.get_tensors`
for one input string `s`: `len(s)` copies of the null symbol followed
by `reverse_with_delete(s)`. -/
def rdtTarget (numSymbols : ℕ) (null : ℕ) (s : List ℕ) : List ℕ :=
  List.replicate s.length null ++ reverse_with_delete numSymbols s

example : (forward 1 stackEmpty [1] 0 (4/5)).1 = [4/5] := by
  norm_num [forward, stepState, stackEmpty, readLoop, popStep, vadd, smul,
    zeroVec, relu]
example : (stepState (stepState stackEmpty [1] 0 (4/5)) [2] (1/10) (1/2)).s
    = [7/10, 1/2] := by
  norm_num [stepState, stackEmpty, popStep, relu]

/-! Section: Basic facts about `relu` and the pop loop -/

theorem relu_nonneg (x : ℚ) : 0 ≤ relu x := le_max_right x 0

theorem relu_le_self (x : ℚ) (hx : 0 ≤ x) : relu x ≤ x := by
  simp [relu, max_le_iff, hx, le_refl]

theorem relu_of_nonneg (x : ℚ) (hx : 0 ≤ x) : relu x = x := by
  simp [relu, max_eq_left, hx]

theorem relu_of_nonpos (x : ℚ) (hx : x ≤ 0) : relu x = 0 := by
  simp [relu, max_eq_right, hx]

theorem popStep_length (u : ℚ) (s : List ℚ) :
    ((popStep u s).1).length = s.length := by
  induction s with
  | nil => rfl
  | cons a rest ih => simp [popStep, ih]

theorem popStep_snd (u : ℚ) (s : List ℚ) :
    (popStep u s).2 = popResidual u s := by
  induction s with
  | nil => rfl
  | cons a rest ih =>
    show relu ((popStep u rest).2 - a) = popResidual u (a :: rest)
    rw [ih]
    rfl

theorem popStep_getD (u : ℚ) (s : List ℚ) :
    ∀ i, i < s.length →
      ((popStep u s).1).getD i 0
        = relu (s.getD i 0 - popResidual u (s.drop (i + 1))) := by
  induction s with
  | nil => intro i hi; simp at hi
  | cons a rest ih =>
    intro i hi
    cases i with
    | zero => simp [popStep, popStep_snd]
    | succ i =>
      simp only [popStep, List.getD_cons_succ, List.drop_succ_cons]
      exact ih i (by simpa using hi)

theorem popStep_fst_nonneg (u : ℚ) (s : List ℚ) :
    ∀ x ∈ (popStep u s).1, 0 ≤ x := by
  induction s with
  | nil => intro x hx; simp [popStep] at hx
  | cons a rest ih =>
    intro x hx
    rcases List.mem_cons.mp hx with h | h
    · rw [h]; exact relu_nonneg _
    · exact ih x h

theorem popStep_snd_nonneg (u : ℚ) (s : List ℚ) (hu : 0 ≤ u) :
    0 ≤ (popStep u s).2 := by
  cases s with
  | nil => exact hu
  | cons a rest => exact relu_nonneg _

theorem popStep_getD_le (u : ℚ) (s : List ℚ) (hu : 0 ≤ u)
    (hs : ∀ x ∈ s, 0 ≤ x) :
    ∀ i, i < s.length → ((popStep u s).1).getD i 0 ≤ s.getD i 0 := by
  induction s with
  | nil => intro i hi; simp at hi
  | cons a rest ih =>
    intro i hi
    cases i with
    | zero =>
      have ha : 0 ≤ a := hs a (List.mem_cons_self a rest)
      have hw : 0 ≤ (popStep u rest).2 := popStep_snd_nonneg u rest hu
      simp only [popStep, List.getD_cons_zero]
      calc relu (a - (popStep u rest).2) ≤ relu a :=
            max_le_max (by linarith) (le_refl 0)
        _ = a := relu_of_nonneg a ha
    | succ i =>
      simp only [popStep, List.getD_cons_succ]
      exact ih (fun x hx => hs x (List.mem_cons_of_mem a hx)) i
        (by simpa using hi)

/-! Section: Claim C1 -/

/-- C1: in every `forward(v, u, d)` call on a stack holding `t` log
entries, the new strength of each existing entry `i` is
`relu(s_i - w_i)`, where the residual pop mass `w_i` starts at `u` at
the top of the log and is updated to `relu(w - s_j)` by every entry `j`
visited on the way down (most recent first); the newly appended top
entry's strength is exactly `d`. -/
theorem claim_C1_strength_update (st : Stack) (v : List ℚ) (u d : ℚ) :
    (stepState st v u d).s.length = st.s.length + 1
    ∧ (∀ i, i < st.s.length →
        (stepState st v u d).s.getD i 0
          = relu (st.s.getD i 0 - popResidual u (st.s.drop (i + 1))))
    ∧ (stepState st v u d).s.getD st.s.length 0 = d := by
  refine ⟨?_, ?_, ?_⟩
  · simp [stepState, popStep_length]
  · intro i hi
    have hi' : i < ((popStep u st.s).1).length := by
      rw [popStep_length]; exact hi
    simp only [stepState]
    rw [List.getD_append _ _ _ _ hi']
    exact popStep_getD u st.s i hi
  · simp only [stepState]
    rw [List.getD_append_right _ _ _ _ (by rw [popStep_length])]
    simp [popStep_length]

/-- C1 witness: the concrete third step of the self-test, where the
stack holds strengths `(0.7, 0.5)` and receives `u = 0.9`: the older
entry is cut to `relu(0.7 - relu(0.9 - 0.5)) = 0.3`, the newly pushed
entry gets strength `0.9`. -/
theorem claim_C1_strength_update_witness :
    ((0 : ℕ) < (2 : ℕ))
    ∧ (stepState ⟨[[1], [2]], [7/10, 1/2]⟩ [3] (9/10) (9/10)).s.getD 0 0
        = relu ((7/10 : ℚ) - popResidual (9/10) [1/2])
    ∧ (stepState ⟨[[1], [2]], [7/10, 1/2]⟩ [3] (9/10) (9/10)).s.getD 2 0
        = 9/10 := by
  refine ⟨by norm_num, ?_, ?_⟩
  · exact (claim_C1_strength_update ⟨[[1], [2]], [7/10, 1/2]⟩ [3] (9/10)
      (9/10)).2.1 0 (by norm_num)
  · exact (claim_C1_strength_update ⟨[[1], [2]], [7/10, 1/2]⟩ [3] (9/10)
      (9/10)).2.2

/-! Section: Claims C5 and C4: log growth and strength bounds -/

theorem reaches_length {st : Stack} (h : Reaches st) :
    st.V.length = st.s.length := by
  induction h with
  | init => rfl
  | step st v u d _ _ _ _ _ ih =>
    simp [stepState, popStep_length, ih]

theorem popStep_fst_le_one (u : ℚ) (s : List ℚ) (hu : 0 ≤ u)
    (hs : ∀ a ∈ s, 0 ≤ a ∧ a ≤ 1) :
    ∀ x ∈ (popStep u s).1, x ≤ 1 := by
  induction s with
  | nil => intro x hx; simp [popStep] at hx
  | cons a rest ih =>
    intro x hx
    rcases List.mem_cons.mp hx with h | h
    · have ha := hs a (List.mem_cons_self a rest)
      have hw : 0 ≤ (popStep u rest).2 := popStep_snd_nonneg u rest hu
      rw [h]
      calc relu (a - (popStep u rest).2) ≤ relu a :=
            max_le_max (by linarith) (le_refl 0)
        _ = a := relu_of_nonneg a ha.1
        _ ≤ 1 := ha.2
    · exact ih (fun b hb => hs b (List.mem_cons_of_mem a hb)) x h

theorem reaches_strength_bounds {st : Stack} (h : Reaches st) :
    ∀ x ∈ st.s, 0 ≤ x ∧ x ≤ 1 := by
  induction h with
  | init => intro x hx; simp [stackEmpty] at hx
  | step st v u d _ hu hu1 hd hd1 ih =>
    intro x hx
    simp only [stepState] at hx
    rcases List.mem_append.mp hx with h | h
    · exact ⟨popStep_fst_nonneg u st.s x h,
        popStep_fst_le_one u st.s hu ih x h⟩
    · rcases List.mem_singleton.mp h with rfl
      exact ⟨hd, hd1⟩

/-- C5: every `forward` call appends exactly one slot to the vector log
and one to the strength log — also when the push signal is `0` — and on
any reachable state the two logs have equal time dimension. -/
theorem claim_C5_log_growth (st : Stack) (v : List ℚ) (u d : ℚ) :
    (stepState st v u d).V.length = st.V.length + 1
    ∧ (stepState st v u d).s.length = st.s.length + 1
    ∧ (stepState st v u 0).s.length = st.s.length + 1
    ∧ (Reaches st →
        (stepState st v u d).V.length = (stepState st v u d).s.length) := by
  refine ⟨by simp [stepState], by simp [stepState, popStep_length],
    by simp [stepState, popStep_length], fun h => ?_⟩
  simp [stepState, popStep_length, reaches_length h]

/-- C5 witness: pushing onto the empty stack with `d = 0` still
occupies a slot, and the logs stay aligned. -/
theorem claim_C5_log_growth_witness :
    (stepState stackEmpty [3] 0 0).V.length = stackEmpty.V.length + 1
    ∧ (stepState stackEmpty [3] 0 0).V.length
        = (stepState stackEmpty [3] 0 0).s.length := by
  exact ⟨(claim_C5_log_growth stackEmpty [3] 0 0).1,
    (claim_C5_log_growth stackEmpty [3] 0 0).2.2.2 Reaches.init⟩

/-- C4: along any sequence of `forward` calls whose pop and push
signals lie in `[0, 1]`, every strength in the log stays in `[0, 1]`;
moreover one call never raises the strength of an existing entry above
`max` of its previous value and the incoming push signal (in fact it
never raises it at all). -/
theorem claim_C4_strength_bounds :
    (∀ st : Stack, Reaches st → ∀ x ∈ st.s, 0 ≤ x ∧ x ≤ 1)
    ∧ (∀ (st : Stack) (v : List ℚ) (u d : ℚ), 0 ≤ u →
        (∀ x ∈ st.s, 0 ≤ x) → ∀ i, i < st.s.length →
          (stepState st v u d).s.getD i 0 ≤ max (st.s.getD i 0) d) := by
  constructor
  · exact fun st h => reaches_strength_bounds h
  · intro st v u d hu hs i hi
    have hi' : i < ((popStep u st.s).1).length := by
      rw [popStep_length]; exact hi
    simp only [stepState]
    rw [List.getD_append _ _ _ _ hi']
    exact le_trans (popStep_getD_le u st.s hu hs i hi)
      (le_max_left _ d)

/-- C4 witness: after the first two self-test steps the strengths are
`0.7` and `0.5`, inside `[0, 1]`; and the third call cannot raise the
strength of the oldest entry above `max(0.7, 0.9)`. -/
theorem claim_C4_strength_bounds_witness :
    (∀ x ∈ (stepState (stepState stackEmpty [1] 0 (4/5)) [2] (1/10)
        (1/2)).s, 0 ≤ x ∧ x ≤ 1)
    ∧ (stepState (stepState (stepState stackEmpty [1] 0 (4/5)) [2]
        (1/10) (1/2)) [3] (9/10) (9/10)).s.getD 0 0
        ≤ max ((stepState (stepState stackEmpty [1] 0 (4/5)) [2] (1/10)
            (1/2)).s.getD 0 0) (9/10) := by
  constructor
  · exact claim_C4_strength_bounds.1 _
      (Reaches.step _ [2] (1/10) (1/2)
        (Reaches.step _ [1] 0 (4/5) Reaches.init (by norm_num)
          (by norm_num) (by norm_num) (by norm_num))
        (by norm_num) (by norm_num) (by norm_num) (by norm_num))
  · refine claim_C4_strength_bounds.2 _ [3] (9/10) (9/10) (by norm_num)
      ?_ 0 ?_
    · intro x hx
      exact (claim_C4_strength_bounds.1 _
        (Reaches.step _ [2] (1/10) (1/2)
          (Reaches.step _ [1] 0 (4/5) Reaches.init (by norm_num)
            (by norm_num) (by norm_num) (by norm_num))
          (by norm_num) (by norm_num) (by norm_num) (by norm_num))
        x hx).1
    · norm_num [stepState, stackEmpty, popStep, popStep_length]

/-! Section: Claim C2: the single read is the spec's weighted sum -/

theorem smul_zeroVec (c : ℚ) (emb : ℕ) :
    smul c (zeroVec emb) = zeroVec emb := by
  simp [smul, zeroVec, List.map_replicate]

theorem vadd_zeroVec_zeroVec (emb : ℕ) :
    vadd (zeroVec emb) (zeroVec emb) = zeroVec emb := by
  induction emb with
  | zero => rfl
  | succ n ih =>
    simp only [vadd, zeroVec, List.replicate_succ, List.zipWith_cons_cons,
      add_zero]
    exact congrArg (List.cons 0) ih

theorem foldr_vadd_all_zero (emb : ℕ) :
    ∀ l : List (List ℚ), (∀ x ∈ l, x = zeroVec emb) →
      l.foldr vadd (zeroVec emb) = zeroVec emb := by
  intro l
  induction l with
  | nil => intro _; rfl
  | cons x xs ih =>
    intro h
    rw [List.foldr_cons, ih (fun y hy => h y (List.mem_cons_of_mem x hy)),
      h x (List.mem_cons_self x xs), vadd_zeroVec_zeroVec]

theorem readSpec_nil_V (emb : ℕ) (thr : ℚ) (s : List ℚ) :
    readSpec emb thr [] s = zeroVec emb := by
  unfold readSpec
  refine foldr_vadd_all_zero emb _ ?_
  intro x hx
  rcases List.mem_map.mp hx with ⟨i, _, rfl⟩
  rw [List.getD_nil, smul_zeroVec]

theorem readSpec_nil_s (emb : ℕ) (thr : ℚ) (V : List (List ℚ)) :
    readSpec emb thr V [] = zeroVec emb := rfl

theorem specCoeff_cons (thr a : ℚ) (sr : List ℚ) (i : ℕ) :
    specCoeff thr (a :: sr) (i + 1) = specCoeff thr sr i := by
  simp [specCoeff, List.getD_cons_succ, List.drop_succ_cons]

theorem readSpec_cons (emb : ℕ) (thr : ℚ) (v : List ℚ)
    (Vr : List (List ℚ)) (a : ℚ) (sr : List ℚ) :
    readSpec emb thr (v :: Vr) (a :: sr)
      = vadd (smul (min a (relu (thr - sr.sum))) v)
          (readSpec emb thr Vr sr) := by
  unfold readSpec
  rw [List.length_cons, List.range_succ_eq_map, List.map_cons,
    List.map_map, List.foldr_cons]
  have h1 : ((fun i => smul (specCoeff thr (a :: sr) i)
        ((v :: Vr).getD i (zeroVec emb))) ∘ Nat.succ)
      = fun i => smul (specCoeff thr sr i) (Vr.getD i (zeroVec emb)) := by
    funext i
    simp [Function.comp, specCoeff_cons, List.getD_cons_succ]
  rw [h1]
  rfl

theorem readLoop_eq_readSpec (emb : ℕ) (thr : ℚ) :
    ∀ (s : List ℚ) (V : List (List ℚ)),
      readLoop emb thr V s = readSpec emb thr V s := by
  intro s
  induction s with
  | nil => intro V; cases V <;> rfl
  | cons a sr ih =>
    intro V
    cases V with
    | nil => rw [readSpec_nil_V]; rfl
    | cons v Vr => rw [readLoop, readSpec_cons, ih]

/-- C2: in the single-read configuration the value returned by
`forward(v, u, d)` is the sum, over all log entries `i`, of
`min(s_i, relu(1 - used_i)) * V_i`, computed over the post-update
strength log (`used_i` being the summed post-update strength of the
entries pushed more recently than `i`, and `0` for the new top). -/
theorem claim_C2_single_read (emb : ℕ) (st : Stack) (v : List ℚ)
    (u d : ℚ) :
    (forward emb st v u d).1
      = readSpec emb 1 (stepState st v u d).V (stepState st v u d).s :=
  readLoop_eq_readSpec emb 1 (stepState st v u d).s (stepState st v u d).V

/-! Section: Claim C7: the embedded self-test trace, in exact arithmetic -/

/-- C7: on a fresh stack with embedding size 1 (single batch element),
the three self-test calls produce read `0.8` after
`forward(1, u=0, d=0.8)`; strengths `(0.7, 0.5)` and read
`0.5*1 + 0.5*2 = 1.5` after `forward(2, u=0.1, d=0.5)`; and strengths
`(0.3, 0, 0.9)` and read `0.9*3 + 0.1*1 = 2.8` after
`forward(3, u=0.9, d=0.9)`. -/
theorem claim_C7_selftest_trace :
    (forward 1 stackEmpty [1] 0 (4/5)).1 = [4/5]
    ∧ (stepState stackEmpty [1] 0 (4/5)).s = [4/5]
    ∧ (forward 1 (stepState stackEmpty [1] 0 (4/5)) [2] (1/10)
        (1/2)).1 = [3/2]
    ∧ (stepState (stepState stackEmpty [1] 0 (4/5)) [2] (1/10)
        (1/2)).s = [7/10, 1/2]
    ∧ (forward 1 (stepState (stepState stackEmpty [1] 0 (4/5)) [2]
        (1/10) (1/2)) [3] (9/10) (9/10)).1 = [14/5]
    ∧ (stepState (stepState (stepState stackEmpty [1] 0 (4/5)) [2]
        (1/10) (1/2)) [3] (9/10) (9/10)).s = [3/10, 0, 9/10] := by
  refine ⟨?_, ?_, ?_, ?_, ?_, ?_⟩ <;>
    norm_num [forward, stepState, stackEmpty, readLoop, popStep, vadd,
      smul, zeroVec, relu]

/-! Section: Claim C3: degeneration to a classical stack at the 0/1 boundary -/

theorem getLastD_irrel {α : Type} (l : List α) (h : l ≠ []) (x y : α) :
    l.getLastD x = l.getLastD y := by
  rw [List.getLastD_eq_getLast?, List.getLastD_eq_getLast?,
    List.getLast?_eq_getLast l h]
  simp

theorem dropLast_cons_ne_nil {α : Type} (a : α) (l : List α)
    (h : l ≠ []) : (a :: l).dropLast = a :: l.dropLast := by
  have := List.dropLast_append_of_ne_nil [a] h
  simpa using this

/-- Predicate `∀ x ∈ s, x = 0 ∨ x = 1`: strengths at the hard boundary. -/
def Bin (s : List ℚ) : Prop := ∀ x ∈ s, x = 0 ∨ x = 1

theorem bin_nonneg {s : List ℚ} (h : Bin s) : ∀ x ∈ s, 0 ≤ x := by
  intro x hx
  rcases h x hx with rfl | rfl <;> norm_num

theorem bin_sum_nonneg {s : List ℚ} (h : Bin s) : 0 ≤ s.sum := by
  induction s with
  | nil => simp
  | cons a rest ih =>
    have ha := bin_nonneg h a (List.mem_cons_self a rest)
    have := ih (fun x hx => h x (List.mem_cons_of_mem a hx))
    simp only [List.sum_cons]
    linarith

theorem bin_sum_zero {s : List ℚ} (h : Bin s) (hz : s.sum = 0) :
    ∀ x ∈ s, x = 0 := by
  induction s with
  | nil => intro x hx; simp at hx
  | cons a rest ih =>
    have ha := bin_nonneg h a (List.mem_cons_self a rest)
    have hrest : Bin rest := fun x hx => h x (List.mem_cons_of_mem a hx)
    have hrs : 0 ≤ rest.sum := bin_sum_nonneg hrest
    have hsum : a + rest.sum = 0 := by simpa using hz
    intro x hx
    rcases List.mem_cons.mp hx with rfl | hx'
    · linarith
    · exact ih hrest (by linarith) x hx'

theorem bin_sum_ge_one {s : List ℚ} (h : Bin s) (hz : s.sum ≠ 0) :
    1 ≤ s.sum := by
  induction s with
  | nil => simp at hz
  | cons a rest ih =>
    have hrest : Bin rest := fun x hx => h x (List.mem_cons_of_mem a hx)
    have hrs : 0 ≤ rest.sum := bin_sum_nonneg hrest
    rcases h a (List.mem_cons_self a rest) with rfl | rfl
    · have : rest.sum ≠ 0 := by simpa using hz
      simpa using ih hrest this
    · simp only [List.sum_cons]
      linarith

theorem hardOf_nil_right (V : List (List ℚ)) : hardOf V [] = [] := by
  simp [hardOf]

theorem hardOf_cons (v : List ℚ) (Vr : List (List ℚ)) (a : ℚ)
    (sr : List ℚ) :
    hardOf (v :: Vr) (a :: sr)
      = if a = 1 then v :: hardOf Vr sr else hardOf Vr sr := by
  by_cases h : a = 1 <;> simp [hardOf, h]

theorem hardOf_of_all_zero {V : List (List ℚ)} {s : List ℚ}
    (h : ∀ x ∈ s, x = 0) : hardOf V s = [] := by
  have : ∀ p ∈ V.zip s, ¬ (p.2 = 1) := by
    intro p hp h1
    have := h p.2 (List.of_mem_zip hp).2
    rw [this] at h1
    norm_num at h1
  simp only [hardOf]
  rw [List.filter_eq_nil_iff.mpr (by intro p hp; simpa using this p hp)]
  rfl

theorem hardOf_ne_nil {V : List (List ℚ)} {s : List ℚ}
    (hlen : V.length = s.length) (hbin : Bin s) (hz : s.sum ≠ 0) :
    hardOf V s ≠ [] := by
  induction s generalizing V with
  | nil => simp at hz
  | cons a sr ih =>
    cases V with
    | nil => simp at hlen
    | cons v Vr =>
      have hlen' : Vr.length = sr.length := by simpa using hlen
      have hbin' : Bin sr := fun x hx => hbin x (List.mem_cons_of_mem a hx)
      rcases hbin a (List.mem_cons_self a sr) with rfl | rfl
      · have hz' : sr.sum ≠ 0 := by simpa using hz
        rw [hardOf_cons]
        simpa using ih hlen' hbin' hz'
      · rw [hardOf_cons]
        simp

theorem popStep_zero {s : List ℚ} (hs : ∀ x ∈ s, 0 ≤ x) :
    popStep 0 s = (s, 0) := by
  induction s with
  | nil => rfl
  | cons a rest ih =>
    have ha := hs a (List.mem_cons_self a rest)
    have ih' := ih (fun x hx => hs x (List.mem_cons_of_mem a hx))
    have h1 : relu (a - 0) = a := by rw [sub_zero]; exact relu_of_nonneg a ha
    have h2 : relu (0 - a) = 0 := relu_of_nonpos _ (by linarith)
    simp only [popStep, ih', h1, h2]

theorem popStep_bin {s : List ℚ} (u : ℚ) (hu : u = 0 ∨ u = 1)
    (hs : Bin s) :
    Bin (popStep u s).1 ∧ ((popStep u s).2 = 0 ∨ (popStep u s).2 = 1) := by
  induction s with
  | nil => exact ⟨fun x hx => by simp [popStep] at hx, hu⟩
  | cons a rest ih =>
    have hrest : Bin rest := fun x hx => hs x (List.mem_cons_of_mem a hx)
    obtain ⟨ihbin, ihres⟩ := ih hrest
    have ha := hs a (List.mem_cons_self a rest)
    constructor
    · intro x hx
      simp only [popStep] at hx
      rcases List.mem_cons.mp hx with rfl | hx'
      · rcases ihres with h2 | h2 <;> rcases ha with rfl | rfl <;>
          rw [h2] <;> norm_num [relu]
      · exact ihbin x hx'
    · show relu ((popStep u rest).2 - a) = 0
        ∨ relu ((popStep u rest).2 - a) = 1
      rcases ihres with h2 | h2 <;> rcases ha with rfl | rfl <;>
        rw [h2] <;> norm_num [relu]

/-- Effect of a full-strength pop on binary strengths: if the log holds
no mass the walk changes nothing and the residual survives; otherwise
the topmost full entry absorbs the pop and, viewed through `hardOf`,
the hard stack loses its last element. -/
theorem popStep_one {s : List ℚ} (hbin : Bin s) :
    (s.sum = 0 ∧ popStep 1 s = (s, 1))
    ∨ (s.sum ≠ 0 ∧ (popStep 1 s).2 = 0
        ∧ ∀ V : List (List ℚ), V.length = s.length →
            hardOf V (popStep 1 s).1 = (hardOf V s).dropLast) := by
  induction s with
  | nil => exact Or.inl ⟨by simp, rfl⟩
  | cons a rest ih =>
    have hrest : Bin rest := fun x hx => hbin x (List.mem_cons_of_mem a hx)
    have hrs : 0 ≤ rest.sum := bin_sum_nonneg hrest
    rcases ih hrest with ⟨hz, hps⟩ | ⟨hz, hres, hdrop⟩
    · rcases hbin a (List.mem_cons_self a rest) with rfl | rfl
      · refine Or.inl ⟨by simpa using hz, ?_⟩
        simp only [popStep, hps]
        norm_num [relu]
      · refine Or.inr ⟨by simp only [List.sum_cons, hz]; norm_num, ?_, ?_⟩
        · show relu ((popStep 1 rest).2 - 1) = 0
          rw [hps]
          norm_num [relu]
        · intro V hlen
          cases V with
          | nil => simp at hlen
          | cons v Vr =>
            have hlen' : Vr.length = rest.length := by simpa using hlen
            simp only [popStep, hps]
            rw [show relu ((1 : ℚ) - 1) = 0 by norm_num [relu],
              hardOf_cons, hardOf_cons]
            rw [hardOf_of_all_zero (bin_sum_zero hrest hz)]
            norm_num
    · have hsum : (a :: rest).sum ≠ 0 := by
        rcases hbin a (List.mem_cons_self a rest) with rfl | rfl <;>
          simp only [List.sum_cons] <;>
          [skip; have := bin_sum_ge_one hrest hz] <;>
          · intro hcon
            have := bin_sum_ge_one hrest hz
            linarith
      refine Or.inr ⟨hsum, ?_, ?_⟩
      · show relu ((popStep 1 rest).2 - a) = 0
        have ha0 : 0 ≤ a := bin_nonneg hbin a (List.mem_cons_self a rest)
        rw [hres]
        exact relu_of_nonpos _ (by linarith)
      · intro V hlen
        cases V with
        | nil => simp at hlen
        | cons v Vr =>
          have hlen' : Vr.length = rest.length := by simpa using hlen
          have ha0 : 0 ≤ a := bin_nonneg hbin a (List.mem_cons_self a rest)
          have hne : hardOf Vr rest ≠ [] := hardOf_ne_nil hlen' hrest hz
          have hstep := hdrop Vr hlen'
          simp only [popStep, hres, sub_zero, relu_of_nonneg a ha0,
            hardOf_cons, hstep]
          by_cases ha : a = 1
          · rw [if_pos ha, if_pos ha, dropLast_cons_ne_nil v _ hne]
          · rw [if_neg ha, if_neg ha]

theorem vadd_smul_zero (v x : List ℚ) (h : v.length = x.length) :
    vadd (smul 0 v) x = x := by
  induction v generalizing x with
  | nil =>
    cases x with
    | nil => rfl
    | cons b xs => simp at h
  | cons a vs ih =>
    cases x with
    | nil => simp at h
    | cons b xs =>
      have hrec := ih xs (by simpa using h)
      simp only [vadd, smul] at hrec ⊢
      simpa using hrec

theorem vadd_smul_one_zeroVec (v : List ℚ) (emb : ℕ)
    (h : v.length = emb) : vadd (smul 1 v) (zeroVec emb) = v := by
  induction v generalizing emb with
  | nil => cases emb with
    | zero => rfl
    | succ n => simp at h
  | cons a vs ih =>
    cases emb with
    | zero => simp at h
    | succ n =>
      have hrec := ih n (by simpa using h)
      simp only [vadd, smul, zeroVec] at hrec ⊢
      simp only [List.replicate_succ, List.map_cons, List.zipWith_cons_cons,
        one_mul, add_zero, List.cons.injEq, true_and]
      simpa using hrec

theorem readLoop_length (emb : ℕ) (thr : ℚ) :
    ∀ (s : List ℚ) (V : List (List ℚ)), (∀ w ∈ V, w.length = emb) →
      (readLoop emb thr V s).length = emb := by
  intro s
  induction s with
  | nil => intro V _; cases V <;> simp [readLoop, zeroVec]
  | cons a sr ih =>
    intro V hV
    cases V with
    | nil => simp [readLoop, zeroVec]
    | cons v Vr =>
      have hv : v.length = emb := hV v (List.mem_cons_self v Vr)
      have := ih Vr (fun w hw => hV w (List.mem_cons_of_mem v hw))
      simp only [readLoop, vadd, List.length_zipWith, smul,
        List.length_map, hv, this, min_self]

/-- At binary strengths the read loop returns the vector of the most
recent full-strength entry — the top of the corresponding hard stack —
or the zero vector when no entry has strength 1. -/
theorem readLoop_hard (emb : ℕ) :
    ∀ (s : List ℚ) (V : List (List ℚ)), V.length = s.length → Bin s →
      (∀ w ∈ V, w.length = emb) →
      readLoop emb 1 V s = (hardOf V s).getLastD (zeroVec emb) := by
  intro s
  induction s with
  | nil =>
    intro V hlen _ _
    cases V with
    | nil => rfl
    | cons v Vr => simp at hlen
  | cons a sr ih =>
    intro V hlen hbin hV
    cases V with
    | nil => simp at hlen
    | cons v Vr =>
      have hlen' : Vr.length = sr.length := by simpa using hlen
      have hbin' : Bin sr := fun x hx => hbin x (List.mem_cons_of_mem a hx)
      have hv : v.length = emb := hV v (List.mem_cons_self v Vr)
      have hV' : ∀ w ∈ Vr, w.length = emb :=
        fun w hw => hV w (List.mem_cons_of_mem v hw)
      have hrec := ih Vr hlen' hbin' hV'
      rw [readLoop, hardOf_cons]
      rcases hbin a (List.mem_cons_self a sr) with rfl | rfl
      · rw [show min (0 : ℚ) (relu (1 - sr.sum)) = 0 from
          min_eq_left (relu_nonneg _)]
        rw [vadd_smul_zero v _ (by
          rw [readLoop_length emb 1 sr Vr hV', hv]), hrec]
        norm_num
      · by_cases hz : sr.sum = 0
        · have hnil : hardOf Vr sr = [] :=
            hardOf_of_all_zero (bin_sum_zero hbin' hz)
          rw [hz, show min (1 : ℚ) (relu (1 - 0)) = 1 by norm_num [relu],
            hrec, hnil]
          simp only [List.getLastD_nil]
          rw [vadd_smul_one_zeroVec v emb hv]
          norm_num
        · have hge := bin_sum_ge_one hbin' hz
          have hne : hardOf Vr sr ≠ [] := hardOf_ne_nil hlen' hbin' hz
          rw [show min (1 : ℚ) (relu (1 - sr.sum)) = 0 by
            rw [relu_of_nonpos _ (by linarith)]; norm_num]
          rw [vadd_smul_zero v _ (by
            rw [readLoop_length emb 1 sr Vr hV', hv]), hrec]
          rw [if_pos rfl, List.getLastD_cons]
          exact (getLastD_irrel _ hne _ _).symm

theorem hardOf_append_single (V : List (List ℚ)) (s : List ℚ)
    (v : List ℚ) (dd : ℚ) (hlen : V.length = s.length) :
    hardOf (V ++ [v]) (s ++ [dd])
      = hardOf V s ++ (if dd = 1 then [v] else []) := by
  simp only [hardOf, List.zip_append hlen, List.filter_append,
    List.map_append]
  by_cases hd : dd = 1 <;> simp [hd]

/-- The refinement invariant tying a soft state to a hard stack. -/
def SimInv (emb : ℕ) (st : Stack) (hs : List (List ℚ)) : Prop :=
  st.V.length = st.s.length ∧ Bin st.s
    ∧ (∀ w ∈ st.V, w.length = emb) ∧ hardOf st.V st.s = hs

theorem popStep_hardOf {s : List ℚ} {V : List (List ℚ)} (u : ℚ)
    (hu : u = 0 ∨ u = 1) (hbin : Bin s) (hlen : V.length = s.length) :
    hardOf V (popStep u s).1
      = if u = 1 then (hardOf V s).dropLast else hardOf V s := by
  rcases hu with rfl | rfl
  · rw [popStep_zero (bin_nonneg hbin)]
    norm_num
  · rw [if_pos rfl]
    rcases popStep_one hbin with ⟨hz, hps⟩ | ⟨_, _, hdrop⟩
    · rw [hps]
      have hnil : hardOf V s = [] := hardOf_of_all_zero (bin_sum_zero hbin hz)
      simp [hnil]
    · exact hdrop V hlen

theorem simInv_step (emb : ℕ) (st : Stack) (hs : List (List ℚ))
    (v : List ℚ) (u d : ℚ) (hinv : SimInv emb st hs)
    (hu : u = 0 ∨ u = 1) (hd : d = 0 ∨ d = 1) (hv : v.length = emb) :
    SimInv emb (stepState st v u d) (hardStep hs v u d) := by
  obtain ⟨hlen, hbin, hV, habs⟩ := hinv
  have hplen : ((popStep u st.s).1).length = st.s.length :=
    popStep_length u st.s
  refine ⟨?_, ?_, ?_, ?_⟩
  · simp [stepState, hplen, hlen]
  · intro x hx
    simp only [stepState] at hx
    rcases List.mem_append.mp hx with h | h
    · exact (popStep_bin u hu hbin).1 x h
    · rcases List.mem_singleton.mp h with rfl
      exact hd
  · intro w hw
    simp only [stepState] at hw
    rcases List.mem_append.mp hw with h | h
    · exact hV w h
    · rcases List.mem_singleton.mp h with rfl
      exact hv
  · simp only [stepState]
    rw [hardOf_append_single _ _ _ _ (by rw [hplen, hlen]),
      popStep_hardOf u hu hbin hlen, habs, hardStep]

theorem softReads_eq_hardTops (emb : ℕ) :
    ∀ (steps : List (List ℚ × ℚ × ℚ)) (st : Stack) (hs : List (List ℚ)),
      SimInv emb st hs →
      (∀ t ∈ steps, (t.2.1 = 0 ∨ t.2.1 = 1) ∧ (t.2.2 = 0 ∨ t.2.2 = 1)
        ∧ t.1.length = emb) →
      softReads emb st steps = hardTops emb hs steps := by
  intro steps
  induction steps with
  | nil => intro st hs _ _; rfl
  | cons t rest ih =>
    intro st hs hinv hsteps
    obtain ⟨v, u, d⟩ := t
    obtain ⟨hu, hd, hv⟩ := hsteps (v, u, d) (List.mem_cons_self _ rest)
    have hinv' : SimInv emb (stepState st v u d) (hardStep hs v u d) :=
      simInv_step emb st hs v u d hinv hu hd hv
    obtain ⟨hlen', hbin', hV', habs'⟩ := hinv'
    have hread : (forward emb st v u d).1
        = hardRead emb (hardStep hs v u d) := by
      show readLoop emb 1 (stepState st v u d).V (stepState st v u d).s
        = hardRead emb (hardStep hs v u d)
      rw [readLoop_hard emb (stepState st v u d).s (stepState st v u d).V
        hlen' hbin' hV', habs']
      rfl
    show (forward emb st v u d).1
        :: softReads emb (forward emb st v u d).2 rest
      = hardRead emb (hardStep hs v u d) :: hardTops emb (hardStep hs v u d) rest
    rw [hread]
    exact congrArg _ (ih (stepState st v u d) (hardStep hs v u d)
      (simInv_step emb st hs v u d hinv hu hd hv)
      (fun x hx => hsteps x (List.mem_cons_of_mem _ hx)))

/-- C3: for every sequence of `forward` calls whose pop and push
signals are each exactly 0 or 1, the single read returned at each step
equals the top-of-stack value of the classical discrete stack that
pops when `u = 1` and then pushes `v` when `d = 1` (reading the zero
vector on an empty stack): at the `{0, 1}` boundary the soft stack
degenerates to a hard stack. -/
theorem claim_C3_hard_boundary (emb : ℕ)
    (steps : List (List ℚ × ℚ × ℚ))
    (h : ∀ t ∈ steps, (t.2.1 = 0 ∨ t.2.1 = 1) ∧ (t.2.2 = 0 ∨ t.2.2 = 1)
      ∧ t.1.length = emb) :
    softReads emb stackEmpty steps = hardTops emb [] steps :=
  softReads_eq_hardTops emb steps stackEmpty []
    ⟨rfl, fun x hx => by simp [stackEmpty] at hx,
      fun w hw => by simp [stackEmpty] at hw, rfl⟩ h

/-- C3 witness: push `v1 = [5]`, push `v2 = [7]`, then pop: the reads
are `v1`, `v2`, `v1` on both the soft and the hard stack. -/
theorem claim_C3_hard_boundary_witness :
    (∀ t ∈ [([(5 : ℚ)], (0 : ℚ), (1 : ℚ)), ([7], 0, 1), ([9], 1, 0)],
      (t.2.1 = 0 ∨ t.2.1 = 1) ∧ (t.2.2 = 0 ∨ t.2.2 = 1)
        ∧ t.1.length = 1)
    ∧ softReads 1 stackEmpty
        [([(5 : ℚ)], (0 : ℚ), (1 : ℚ)), ([7], 0, 1), ([9], 1, 0)]
      = hardTops 1 []
        [([(5 : ℚ)], (0 : ℚ), (1 : ℚ)), ([7], 0, 1), ([9], 1, 0)] := by
  refine ⟨?_, ?_⟩
  · intro t ht
    fin_cases ht <;> norm_num
  · refine claim_C3_hard_boundary 1 _ ?_
    intro t ht
    fin_cases ht <;> norm_num

/-! Section: Claim C6: multi-read consistency -/

theorem getD_map_range {α : Type} (f : ℕ → α) (K i : ℕ) (h : i < K)
    (d : α) : ((List.range K).map f).getD i d = f i := by
  rw [List.getD_eq_getElem _ _ (by simpa using h)]
  simp

theorem sum_map_sub (f g : ℕ → ℚ) :
    ∀ l : List ℕ, (l.map (fun j => f j - g j)).sum
      = (l.map f).sum - (l.map g).sum := by
  intro l
  induction l with
  | nil => simp
  | cons a t ih => simp only [List.map_cons, List.sum_cons, ih]; ring

theorem range_map_specCoeff (t a : ℚ) (sr : List ℚ) :
    (List.range (sr.length + 1)).map (specCoeff t (a :: sr))
      = specCoeff t (a :: sr) 0 :: (List.range sr.length).map
          (specCoeff t sr) := by
  rw [List.range_succ_eq_map, List.map_cons, List.map_map]
  refine congrArg (List.cons _) (List.map_congr_left ?_)
  intro i _
  exact specCoeff_cons t a sr i

/-- The total coefficient mass a read at threshold `t` assigns to a
log of nonnegative strengths: exactly `min t (total strength)`. -/
theorem sum_specCoeff (t : ℚ) (ht : 0 ≤ t) :
    ∀ s : List ℚ, (∀ x ∈ s, 0 ≤ x) →
      ((List.range s.length).map (specCoeff t s)).sum = min t s.sum := by
  intro s
  induction s with
  | nil => intro _; simp [ht, min_eq_left]
  | cons a sr ih =>
    intro hs
    have ha : 0 ≤ a := hs a (List.mem_cons_self a sr)
    have hsr : ∀ x ∈ sr, 0 ≤ x :=
      fun x hx => hs x (List.mem_cons_of_mem a hx)
    have hR : 0 ≤ sr.sum := List.sum_nonneg hsr
    rw [List.length_cons, range_map_specCoeff, List.sum_cons, ih hsr]
    have hhead : specCoeff t (a :: sr) 0
        = min a (relu (t - sr.sum)) := rfl
    rw [hhead, List.sum_cons]
    rcases le_or_lt t sr.sum with hcase | hcase
    · rw [relu_of_nonpos _ (by linarith), min_eq_right ha,
        min_eq_left hcase, min_eq_left (by linarith : t ≤ a + sr.sum)]
      ring
    · rw [relu_of_nonneg _ (by linarith), min_eq_right hcase.le]
      rcases le_or_lt a (t - sr.sum) with hcase2 | hcase2
      · rw [min_eq_left hcase2,
          min_eq_right (by linarith : a + sr.sum ≤ t)]
      · rw [min_eq_right hcase2.le,
          min_eq_left (by linarith : t ≤ a + sr.sum)]
        ring

theorem readLoop_zero_thr (emb : ℕ) :
    ∀ (s : List ℚ) (V : List (List ℚ)), (∀ x ∈ s, 0 ≤ x) →
      (∀ w ∈ V, w.length = emb) → readLoop emb 0 V s = zeroVec emb := by
  intro s
  induction s with
  | nil => intro V _ _; cases V <;> rfl
  | cons a sr ih =>
    intro V hs hV
    cases V with
    | nil => rfl
    | cons v Vr =>
      have ha : 0 ≤ a := hs a (List.mem_cons_self a sr)
      have hsr : ∀ x ∈ sr, 0 ≤ x :=
        fun x hx => hs x (List.mem_cons_of_mem a hx)
      have hV' : ∀ w ∈ Vr, w.length = emb :=
        fun w hw => hV w (List.mem_cons_of_mem v hw)
      have hcoeff : min a (relu (0 - sr.sum)) = 0 := by
        rw [relu_of_nonpos _ (by have := List.sum_nonneg hsr; linarith)]
        exact min_eq_right ha
      rw [readLoop, hcoeff, ih Vr hsr hV',
        vadd_smul_zero v _ (by
          rw [hV v (List.mem_cons_self v Vr)]; simp [zeroVec])]

theorem vsub_zeroVec (x : List ℚ) (emb : ℕ) (h : x.length = emb) :
    vsub x (zeroVec emb) = x := by
  induction x generalizing emb with
  | nil => cases emb with
    | zero => rfl
    | succ n => simp at h
  | cons a xs ih =>
    cases emb with
    | zero => simp at h
    | succ n =>
      have hrec := ih n (by simpa using h)
      simp only [vsub, zeroVec] at hrec ⊢
      simp only [List.replicate_succ, List.zipWith_cons_cons, sub_zero,
        List.cons.injEq, true_and]
      exact hrec

theorem multiRead_getD (emb K : ℕ) (V : List (List ℚ)) (s : List ℚ)
    (i : ℕ) (hi : i < K) :
    (multiRead emb K V s).getD i (zeroVec emb)
      = if i = 0 then readLoop emb 1 V s
        else vsub (readLoop emb (1 + (i : ℚ)) V s)
          (readLoop emb (1 + ((i - 1 : ℕ) : ℚ)) V s) := by
  unfold multiRead
  rw [getD_map_range _ K i hi]
  by_cases h0 : i = 0
  · subst h0
    rw [if_pos rfl, if_pos rfl, getD_map_range _ K 0 hi]
    norm_num
  · rw [if_neg h0, if_neg h0, getD_map_range _ K i hi,
      getD_map_range _ K (i - 1) (by omega)]

/-- C6: on any reachable state, each read level returned by the
multi-read branch is the cumulative read at threshold `i + 1` minus the
cumulative read at threshold `i`, and the coefficients each level
effectively assigns to the log entries sum to at most `1`. -/
theorem claim_C6_multi_read (emb K : ℕ) (st : Stack) (v : List ℚ)
    (u d : ℚ) (hre : Reaches st) (hu : 0 ≤ u) (hu1 : u ≤ 1)
    (hd : 0 ≤ d) (hd1 : d ≤ 1) (hv : v.length = emb)
    (hV : ∀ w ∈ st.V, w.length = emb) :
    (∀ i, i < K →
      ((forwardK emb K st v u d).1).getD i (zeroVec emb)
        = vsub
            (readLoop emb ((i : ℚ) + 1) (stepState st v u d).V
              (stepState st v u d).s)
            (readLoop emb ((i : ℚ)) (stepState st v u d).V
              (stepState st v u d).s))
    ∧ (∀ i : ℕ,
        ((List.range (stepState st v u d).s.length).map
          (fun j => specCoeff ((i : ℚ) + 1) (stepState st v u d).s j
            - specCoeff ((i : ℚ)) (stepState st v u d).s j)).sum ≤ 1) := by
  have hre' : Reaches (stepState st v u d) :=
    Reaches.step st v u d hre hu hu1 hd hd1
  have hs' : ∀ x ∈ (stepState st v u d).s, 0 ≤ x :=
    fun x hx => (reaches_strength_bounds hre' x hx).1
  have hV' : ∀ w ∈ (stepState st v u d).V, w.length = emb := by
    intro w hw
    simp only [stepState] at hw
    rcases List.mem_append.mp hw with h | h
    · exact hV w h
    · rcases List.mem_singleton.mp h with rfl
      exact hv
  constructor
  · intro i hi
    show (multiRead emb K (stepState st v u d).V
        (stepState st v u d).s).getD i (zeroVec emb) = _
    rw [multiRead_getD emb K _ _ i hi]
    by_cases h0 : i = 0
    · subst h0
      rw [if_pos rfl, Nat.cast_zero, zero_add,
        readLoop_zero_thr emb _ _ hs' hV',
        vsub_zeroVec _ emb (readLoop_length emb 1 _ _ hV')]
    · rw [if_neg h0, add_comm (1 : ℚ) (i : ℚ)]
      have : (1 : ℚ) + ((i - 1 : ℕ) : ℚ) = (i : ℚ) := by
        rw [Nat.cast_sub (by omega : 1 ≤ i)]
        push_cast
        ring
      rw [this]
  · intro i
    have h1 : ((List.range (stepState st v u d).s.length).map
        (specCoeff ((i : ℚ) + 1) (stepState st v u d).s)).sum
        = min ((i : ℚ) + 1) (stepState st v u d).s.sum :=
      sum_specCoeff _ (by positivity) _ hs'
    have h2 : ((List.range (stepState st v u d).s.length).map
        (specCoeff ((i : ℚ)) (stepState st v u d).s)).sum
        = min ((i : ℚ)) (stepState st v u d).s.sum :=
      sum_specCoeff _ (by positivity) _ hs'
    rw [sum_map_sub, h1, h2]
    rcases le_or_lt ((i : ℚ) + 1) (stepState st v u d).s.sum with hc | hc
    · rw [min_eq_left hc, min_eq_left (by linarith)]
      ring_nf
      linarith [le_refl (1 : ℚ)]
    · rcases le_or_lt ((i : ℚ)) (stepState st v u d).s.sum with hc2 | hc2
      · rw [min_eq_right hc.le, min_eq_left hc2]
        linarith
      · rw [min_eq_right hc.le, min_eq_right hc2.le]
        linarith

/-- C6 witness: two read levels on the reachable state obtained by one
full push of `[5]`: level 1 is the difference of the cumulative reads
at thresholds 2 and 1, and each level's coefficients sum to at most 1. -/
theorem claim_C6_multi_read_witness :
    ((forwardK 1 2 stackEmpty [5] 0 1).1).getD 1 (zeroVec 1)
      = vsub
          (readLoop 1 ((1 : ℚ) + 1) (stepState stackEmpty [5] 0 1).V
            (stepState stackEmpty [5] 0 1).s)
          (readLoop 1 ((1 : ℚ)) (stepState stackEmpty [5] 0 1).V
            (stepState stackEmpty [5] 0 1).s)
    ∧ ((List.range (stepState stackEmpty [5] 0 1).s.length).map
        (fun j => specCoeff ((0 : ℚ) + 1) (stepState stackEmpty [5] 0 1).s j
          - specCoeff ((0 : ℚ)) (stepState stackEmpty [5] 0 1).s j)).sum
        ≤ 1 := by
  constructor
  · exact (claim_C6_multi_read 1 2 stackEmpty [5] 0 1 Reaches.init
      (by norm_num) (by norm_num) (by norm_num) (by norm_num) rfl
      (fun w hw => by simp [stackEmpty] at hw)).1 1 (by norm_num)
  · have := (claim_C6_multi_read 1 2 stackEmpty [5] 0 1 Reaches.init
      (by norm_num) (by norm_num) (by norm_num) (by norm_num) rfl
      (fun w hw => by simp [stackEmpty] at hw)).2 0
    simpa using this

/-! Section: Claim C8: shape checking of the pushed tensor -/

theorem chunkRows_flatten (E : ℕ) :
    ∀ (B : ℕ) (l : List ℚ), l.length = B * E →
      (chunkRows E B l).flatten = l := by
  intro B
  induction B with
  | zero =>
    intro l hl
    have : l = [] := List.eq_nil_of_length_eq_zero (by simpa using hl)
    subst this
    rfl
  | succ b ih =>
    intro l hl
    have hdrop : (l.drop E).length = b * E := by
      rw [List.length_drop, hl]
      ring_nf
      omega
    simp only [chunkRows, List.flatten_cons, ih (l.drop E) hdrop,
      List.take_append_drop]

/-- C8 counterexample: a stack constructed with `batch_size = 2` and
`embedding_size = 3` accepts a pushed tensor of shape `[3, 2]` — wrong
batch size and wrong embedding size, but the same total element count —
and silently reshapes it instead of raising a mismatched-shape error. -/
theorem claim_C8_shape_error_counterexample :
    tensorView 2 3 [[1, 2], [3, 4], [5, 6]]
      = some [[1, 2, 3], [4, 5, 6]]
    ∧ ([[1, 2], [3, 4], [5, 6]] : List (List ℚ)).length ≠ 2
    ∧ ([[(1 : ℚ), 2], [3, 4], [5, 6]].getD 0 []).length ≠ 3 := by
  refine ⟨?_, by norm_num, by norm_num⟩
  norm_num [tensorView, chunkRows]

/-- C8 (amended): `v.view(1, batch_size, embedding_size)` raises a
mismatched-shape error exactly when the total element count of `v`
differs from `batch_size * embedding_size`; when the count matches, the
call silently reshapes, keeping every element in order (never
truncating or duplicating), even if `v`'s own batch or embedding
dimension disagrees with the construction-time values. -/
theorem claim_C8_shape_error_amended (B E : ℕ) (v : List (List ℚ)) :
    (tensorView B E v = none ↔ v.flatten.length ≠ B * E)
    ∧ (∀ out, tensorView B E v = some out → out.flatten = v.flatten) := by
  constructor
  · unfold tensorView
    by_cases h : v.flatten.length = B * E <;> simp [h]
  · intro out hout
    unfold tensorView at hout
    by_cases h : v.flatten.length = B * E
    · rw [if_pos h] at hout
      rcases Option.some.injEq _ _ ▸ hout with rfl
      exact chunkRows_flatten E B v.flatten h
    · rw [if_neg h] at hout
      exact absurd hout (by simp)

/-- C8 amended-claim witness: with `B*E = 6` matching, the transposed
input is reshaped, not rejected, and its elements survive in order. -/
theorem claim_C8_shape_error_amended_witness :
    (tensorView 2 3 [[(1 : ℚ), 2], [3, 4], [5, 6]] = none
      ↔ ([[(1 : ℚ), 2], [3, 4], [5, 6]] : List (List ℚ)).flatten.length
          ≠ 2 * 3)
    ∧ ([[(1 : ℚ), 2, 3], [4, 5, 6]] : List (List ℚ)).flatten
        = ([[(1 : ℚ), 2], [3, 4], [5, 6]] : List (List ℚ)).flatten := by
  refine ⟨(claim_C8_shape_error_amended 2 3 _).1, ?_⟩
  refine (claim_C8_shape_error_amended 2 3 _).2 [[(1 : ℚ), 2, 3], [4, 5, 6]] ?_
  norm_num [tensorView, chunkRows]

/-! Section: Claim C9: empty grammar sample sets fail loudly -/

/-- C9: when the grammar produced zero sample strings, dataset
generation (any positive number of requested examples) fails with the
`IndexError` that `random.choice` raises on an empty sequence, instead
of silently returning an empty dataset. -/
theorem claim_C9_empty_samples (n : ℕ) (hn : 0 < n) :
    getTensorsCFG ([] : List (List ℕ)) n = none := by
  cases n with
  | zero => omega
  | succ m => rfl

/-- C9 witness: requesting one example from an empty sample set. -/
theorem claim_C9_empty_samples_witness :
    0 < 1 ∧ getTensorsCFG ([] : List (List ℕ)) 1 = none :=
  ⟨by norm_num, claim_C9_empty_samples 1 (by norm_num)⟩

/-! Section: Claim C10: reverse-with-delete -/

theorem foldl_keep_filter (n : ℕ) :
    ∀ (s : List ℕ) (acc : List ℕ),
      s.foldl (fun t symbol => if symbol < n then t ++ [symbol] else t) acc
        = acc ++ s.filter (fun symbol => symbol < n) := by
  intro s
  induction s with
  | nil => intro acc; simp
  | cons a t ih =>
    intro acc
    by_cases h : a < n
    · simp [ih, h]
    · simp [ih, h]

/-- C10: `reverse_with_delete(s)` is exactly the reversal of the
subsequence of `s` made of the symbols strictly below
`num_symbols // 2`, and the raw target of
`ReverseDeletionTask.get_tensors` is `len(s)` nulls followed by it. -/
theorem claim_C10_reverse_with_delete (numSymbols null : ℕ)
    (s : List ℕ) :
    reverse_with_delete numSymbols s
      = (s.filter (fun symbol => symbol < numSymbols / 2)).reverse
    ∧ rdtTarget numSymbols null s
      = List.replicate s.length null
          ++ (s.filter (fun symbol => symbol < numSymbols / 2)).reverse := by
  have h : reverse_with_delete numSymbols s
      = (s.filter (fun symbol => symbol < numSymbols / 2)).reverse := by
    unfold reverse_with_delete
    rw [foldl_keep_filter (numSymbols / 2) s []]
    simp
  exact ⟨h, by rw [rdtTarget, h]⟩
